import Mathlib

/-!
Verification of the EvolvingNexusCounter contract (src/contract.sol) and the
client auto-refresh scheduler (src/main.js, src/unnamed/part_000).

The contract state is embedded shallowly: uint256 fields become Nat (Solidity
0.8 checked arithmetic reverts instead of wrapping; the `+= 1` sites are
guarded by explicit `< 2^256` checks where the sum could exceed uint256),
mappings become functions `Nat → _`, and a reverting call is `none` — the
whole call is atomic, so a revert anywhere leaves the pre-state.

The two parallel arrays `topAddresses` / `topCounts` are always pushed,
written and swapped at the same index in lockstep, so they are represented
as one list of (address, count) pairs.
-/

namespace Nexus

/-- Addresses, abstracted as naturals. -/
abbrev Addr := Nat

/-- One leaderboard slot: `(topAddresses[i], topCounts[i])`. -/
abbrev Entry := Addr × Nat

/-- `MAX_TOP` from the contract. -/
def MAX_TOP : Nat := 20

/-- `COOLDOWN_SECONDS` from the contract (1 hours). -/
def COOLDOWN_SECONDS : Nat := 3600

/-- uint256 overflow bound. -/
def U256 : Nat := 2 ^ 256

/-- The bubble-up while loop of `_updateTopLeaderboard`, acting on the
REVERSED prefix to the left of the moving entry `e`: while the nearest left
neighbour `p` has a strictly smaller count, swap (`topCounts[i] > topCounts[i-1]`). -/
def bubbleRev (e : Entry) : List Entry → List Entry
  | [] => [e]
  | p :: rest => if p.2 < e.2 then p :: bubbleRev e rest else e :: p :: rest

/-- Bubble entry `e` left through the slots `pre` standing before it
(given left to right), as the contract's while loops do. -/
def bubble (pre : List Entry) (e : Entry) : List Entry :=
  (bubbleRev e pre.reverse).reverse

/-- The linear scan of step 1 of `_updateTopLeaderboard`: the first slot
holding `user`, together with the slots before and after it. -/
def findUser : List Entry → Addr → Option (List Entry × Entry × List Entry)
  | [], _ => none
  | e :: rest, u =>
      if e.1 = u then some ([], e, rest)
      else
        match findUser rest u with
        | some (pre, f, suf) => some (e :: pre, f, suf)
        | none => none

/-- `_updateTopLeaderboard(user)` with `userCount = incrementCount[user]`:
if `user` is already in the list, overwrite its count and bubble it up;
otherwise append when below capacity, and when full replace the last slot
only if the new count strictly beats it, then bubble up. -/
def updateTopLeaderboard (board : List Entry) (user : Addr) (userCount : Nat) :
    List Entry :=
  match findUser board user with
  | some (pre, _f, suf) => bubble pre (user, userCount) ++ suf
  | none =>
      if board.length < MAX_TOP then
        bubble board (user, userCount)
      else if userCount ≤ (board.getLastD (0, 0)).2 then board
      else bubble board.dropLast (user, userCount)

/-- Scores are non-increasing left to right (descending order; ties allowed,
the contract's strict `>` comparison never reorders equal scores). -/
def sortedBoard (l : List Entry) : Prop :=
  l.Pairwise (fun a b => b.2 ≤ a.2)

/-- Each address occupies at most one slot. -/
def addrsNodup (l : List Entry) : Prop :=
  (l.map Prod.fst).Nodup

/-- Repeated maintainer-level `update(address, newScore)` calls (spec §4.1). -/
def runUpdates (board : List Entry) (calls : List (Addr × Nat)) : List Entry :=
  calls.foldl (fun b p => updateTopLeaderboard b p.1 p.2) board

/-! ### Structure of one bubble pass -/

theorem bubbleRev_split (e : Entry) (l : List Entry) :
    ∃ w sfx, l = w ++ sfx ∧ bubbleRev e l = w ++ e :: sfx ∧
      (∀ x ∈ w, x.2 < e.2) ∧ ∀ y rest, sfx = y :: rest → e.2 ≤ y.2 := by
  induction l with
  | nil => exact ⟨[], [], rfl, rfl, by simp, by simp⟩
  | cons p rest ih =>
      by_cases h : p.2 < e.2
      · obtain ⟨w, sfx, hl, hb, hw, hh⟩ := ih
        refine ⟨p :: w, sfx, by simp [hl], ?_, ?_, hh⟩
        · simp [bubbleRev, h, hb]
        · intro x hx
          rcases List.mem_cons.mp hx with rfl | hx
          · exact h
          · exact hw x hx
      · refine ⟨[], p :: rest, rfl, by simp [bubbleRev, h], by simp, ?_⟩
        intro y r hyr
        cases hyr
        exact Nat.le_of_not_lt h

theorem bubble_split (pre : List Entry) (e : Entry) :
    ∃ A B, pre = A ++ B ∧ bubble pre e = A ++ e :: B ∧
      (∀ x ∈ B, x.2 < e.2) ∧
      (sortedBoard pre → ∀ x ∈ A, e.2 ≤ x.2) := by
  obtain ⟨w, sfx, hl, hb, hw, hh⟩ := bubbleRev_split e pre.reverse
  refine ⟨sfx.reverse, w.reverse, ?_, ?_, ?_, ?_⟩
  · have : pre.reverse.reverse = (w ++ sfx).reverse := by rw [hl]
    simpa [List.reverse_append] using this
  · unfold bubble
    rw [hb]
    simp [List.reverse_append]
  · intro x hx
    exact hw x (List.mem_reverse.mp hx)
  · intro hs x hx
    have hx' : x ∈ sfx := List.mem_reverse.mp hx
    have hrev : pre.reverse.Pairwise (fun a b : Entry => a.2 ≤ b.2) := by
      have := List.pairwise_reverse.mpr hs
      simpa [sortedBoard] using this
    have hsfx : sfx.Pairwise (fun a b : Entry => a.2 ≤ b.2) := by
      rw [hl] at hrev
      exact (List.pairwise_append.mp hrev).2.1
    cases sfx with
    | nil => cases hx'
    | cons y r =>
        have hey : e.2 ≤ y.2 := hh y r rfl
        rcases List.mem_cons.mp hx' with rfl | hx''
        · exact hey
        · have := (List.pairwise_cons.mp hsfx).1 x hx''
          exact le_trans hey this

theorem bubble_perm (pre : List Entry) (e : Entry) :
    (bubble pre e).Perm (e :: pre) := by
  obtain ⟨A, B, hpre, hb, -, -⟩ := bubble_split pre e
  rw [hb, hpre]
  exact List.perm_middle

theorem bubble_length (pre : List Entry) (e : Entry) :
    (bubble pre e).length = pre.length + 1 := by
  have := (bubble_perm pre e).length_eq
  simpa using this

theorem bubble_sorted {pre : List Entry} (hs : sortedBoard pre) (e : Entry) :
    sortedBoard (bubble pre e) := by
  obtain ⟨A, B, hpre, hb, hB, hA⟩ := bubble_split pre e
  have hA' := hA hs
  rw [hpre] at hs
  unfold sortedBoard at hs ⊢
  rw [hb]
  rw [List.pairwise_append] at hs ⊢
  obtain ⟨hsA, hsB, hcross⟩ := hs
  refine ⟨hsA, ?_, ?_⟩
  · rw [List.pairwise_cons]
    exact ⟨fun b hb' => Nat.le_of_lt (hB b hb'), hsB⟩
  · intro a ha y hy
    rcases List.mem_cons.mp hy with rfl | hy'
    · exact hA' a ha
    · exact hcross a ha y hy'

theorem bubble_mem {pre : List Entry} {e x : Entry} (hx : x ∈ bubble pre e) :
    x = e ∨ x ∈ pre := by
  have := (bubble_perm pre e).mem_iff.mp hx
  simpa using this

/-! ### The linear scan -/

theorem findUser_some {board : List Entry} {u : Addr}
    {pre : List Entry} {f : Entry} {suf : List Entry}
    (h : findUser board u = some (pre, f, suf)) :
    board = pre ++ f :: suf ∧ f.1 = u ∧ ∀ e ∈ pre, e.1 ≠ u := by
  induction board generalizing pre with
  | nil => simp [findUser] at h
  | cons e rest ih =>
      by_cases he : e.1 = u
      · simp only [findUser, if_pos he] at h
        simp only [Option.some.injEq, Prod.mk.injEq] at h
        obtain ⟨h1, h2, h3⟩ := h
        subst h1
        subst h2
        subst h3
        exact ⟨rfl, he, by simp⟩
      · simp only [findUser, if_neg he] at h
        cases hrec : findUser rest u with
        | none => rw [hrec] at h; cases h
        | some trip =>
            obtain ⟨pre', f', suf'⟩ := trip
            rw [hrec] at h
            simp only [Option.some.injEq, Prod.mk.injEq] at h
            obtain ⟨h1, h2, h3⟩ := h
            subst h1
            subst h2
            subst h3
            obtain ⟨hb, hf, hp⟩ := ih hrec
            refine ⟨by simp [hb], hf, ?_⟩
            intro x hx
            rcases List.mem_cons.mp hx with rfl | hx'
            · exact he
            · exact hp x hx'

theorem findUser_none {board : List Entry} {u : Addr}
    (h : findUser board u = none) : ∀ e ∈ board, e.1 ≠ u := by
  induction board with
  | nil => simp
  | cons e rest ih =>
      by_cases he : e.1 = u
      · simp [findUser, he] at h
      · simp only [findUser, if_neg he] at h
        intro x hx
        rcases List.mem_cons.mp hx with rfl | hx'
        · exact he
        · cases hrec : findUser rest u with
          | none => exact ih hrec x hx'
          | some trip => rw [hrec] at h; obtain ⟨a, b, c⟩ := trip; cases h

/-! ### Case analysis of `_updateTopLeaderboard` -/

theorem updateTopLeaderboard_char (board : List Entry) (u : Addr) (c : Nat) :
    (∃ pre f suf, board = pre ++ f :: suf ∧ f.1 = u ∧ (∀ e ∈ pre, e.1 ≠ u) ∧
       updateTopLeaderboard board u c = bubble pre (u, c) ++ suf) ∨
    ((∀ e ∈ board, e.1 ≠ u) ∧ board.length < MAX_TOP ∧
       updateTopLeaderboard board u c = bubble board (u, c)) ∨
    ((∀ e ∈ board, e.1 ≠ u) ∧ MAX_TOP ≤ board.length ∧
       c ≤ (board.getLastD (0, 0)).2 ∧ updateTopLeaderboard board u c = board) ∨
    ((∀ e ∈ board, e.1 ≠ u) ∧ MAX_TOP ≤ board.length ∧
       (board.getLastD (0, 0)).2 < c ∧
       updateTopLeaderboard board u c = bubble board.dropLast (u, c)) := by
  unfold updateTopLeaderboard
  cases hf : findUser board u with
  | some trip =>
      obtain ⟨pre, f, suf⟩ := trip
      obtain ⟨hb, hfu, hpre⟩ := findUser_some hf
      exact Or.inl ⟨pre, f, suf, hb, hfu, hpre, rfl⟩
  | none =>
      have hnone := findUser_none hf
      by_cases hlen : board.length < MAX_TOP
      · exact Or.inr (Or.inl ⟨hnone, hlen, by rw [if_pos hlen]⟩)
      · by_cases hc : c ≤ (board.getLastD (0, 0)).2
        · exact Or.inr (Or.inr (Or.inl
            ⟨hnone, Nat.le_of_not_lt hlen, hc, by rw [if_neg hlen, if_pos hc]⟩))
        · exact Or.inr (Or.inr (Or.inr
            ⟨hnone, Nat.le_of_not_lt hlen, Nat.lt_of_not_le hc,
             by rw [if_neg hlen, if_neg hc]⟩))

theorem updateTopLeaderboard_sorted {board : List Entry} {u : Addr} {c : Nat}
    (hs : sortedBoard board) (hsc : ∀ sc, (u, sc) ∈ board → sc ≤ c) :
    sortedBoard (updateTopLeaderboard board u c) := by
  rcases updateTopLeaderboard_char board u c with
    ⟨pre, f, suf, hb, hfu, hpre, heq⟩ | ⟨-, -, heq⟩ | ⟨-, -, -, heq⟩ | ⟨-, -, -, heq⟩
  · rw [heq]
    subst hb
    unfold sortedBoard at hs ⊢
    rw [List.pairwise_append] at hs
    obtain ⟨hsPre, hsTail, hcross⟩ := hs
    have hfc : f.2 ≤ c := by
      have : (u, f.2) ∈ pre ++ f :: suf := by
        have : f = (u, f.2) := by
          cases f
          simp at hfu
          simp [hfu]
        rw [← this]
        simp
      exact hsc f.2 this
    have hbub : sortedBoard (bubble pre (u, c)) := bubble_sorted hsPre (u, c)
    rw [List.pairwise_append]
    refine ⟨hbub, (List.pairwise_cons.mp hsTail).2, ?_⟩
    intro a ha b hbmem
    have hbf : b.2 ≤ f.2 := (List.pairwise_cons.mp hsTail).1 b hbmem
    rcases bubble_mem ha with rfl | ha'
    · exact le_trans hbf hfc
    · have : b.2 ≤ a.2 := by
        have := hcross a ha' f (by simp)
        exact le_trans hbf this
      exact this
  · rw [heq]
    exact bubble_sorted hs (u, c)
  · rw [heq]; exact hs
  · rw [heq]
    exact bubble_sorted (List.Pairwise.sublist (List.dropLast_sublist board) hs) (u, c)

theorem updateTopLeaderboard_length {board : List Entry} {u : Addr} {c : Nat}
    (hlen : board.length ≤ MAX_TOP) :
    (updateTopLeaderboard board u c).length ≤ MAX_TOP := by
  rcases updateTopLeaderboard_char board u c with
    ⟨pre, f, suf, hb, -, -, heq⟩ | ⟨-, hl, heq⟩ | ⟨-, -, -, heq⟩ | ⟨-, hl, -, heq⟩
  · rw [heq]
    subst hb
    rw [List.length_append, bubble_length]
    rw [List.length_append, List.length_cons] at hlen
    omega
  · rw [heq, bubble_length]
    omega
  · rw [heq]; exact hlen
  · rw [heq, bubble_length, List.length_dropLast]
    simp only [MAX_TOP] at hl hlen ⊢
    omega

theorem updateTopLeaderboard_nodup {board : List Entry} {u : Addr} {c : Nat}
    (hn : addrsNodup board) : addrsNodup (updateTopLeaderboard board u c) := by
  rcases updateTopLeaderboard_char board u c with
    ⟨pre, f, suf, hb, hfu, -, heq⟩ | ⟨hno, -, heq⟩ | ⟨-, -, -, heq⟩ | ⟨hno, -, -, heq⟩
  · rw [heq]
    subst hb
    unfold addrsNodup at hn ⊢
    have hperm : (bubble pre (u, c) ++ suf).Perm ((u, c) :: (pre ++ suf)) := by
      have h1 : (bubble pre (u, c) ++ suf).Perm (((u, c) :: pre) ++ suf) :=
        (bubble_perm pre (u, c)).append_right suf
      simpa using h1
    have hperm2 : (pre ++ f :: suf).Perm (f :: (pre ++ suf)) := List.perm_middle
    have hmaps := hperm.map Prod.fst
    refine hmaps.symm.nodup ?_
    have hn2 : ((f :: (pre ++ suf)).map Prod.fst).Nodup := (hperm2.map Prod.fst).nodup hn
    simpa [hfu] using hn2
  · rw [heq]
    unfold addrsNodup at hn ⊢
    refine ((bubble_perm board (u, c)).map Prod.fst).symm.nodup ?_
    simp only [List.map_cons]
    rw [List.nodup_cons]
    refine ⟨?_, hn⟩
    intro hmem
    obtain ⟨e, he, heq'⟩ := List.mem_map.mp hmem
    exact hno e he heq'
  · rw [heq]; exact hn
  · rw [heq]
    unfold addrsNodup at hn ⊢
    refine ((bubble_perm board.dropLast (u, c)).map Prod.fst).symm.nodup ?_
    simp only [List.map_cons]
    rw [List.nodup_cons]
    have hsub : (board.dropLast.map Prod.fst).Sublist (board.map Prod.fst) :=
      (List.dropLast_sublist board).map Prod.fst
    refine ⟨?_, hsub.nodup hn⟩
    intro hmem
    obtain ⟨e, he, heq'⟩ := List.mem_map.mp hmem
    exact hno e (List.mem_of_mem_dropLast he) heq'

theorem updateTopLeaderboard_mem {board : List Entry} {u : Addr} {c : Nat}
    (hn : addrsNodup board) :
    ∀ x ∈ updateTopLeaderboard board u c, x = (u, c) ∨ (x ∈ board ∧ x.1 ≠ u) := by
  rcases updateTopLeaderboard_char board u c with
    ⟨pre, f, suf, hb, hfu, hpre, heq⟩ | ⟨hno, -, heq⟩ | ⟨hno, -, -, heq⟩ | ⟨hno, -, -, heq⟩
  · rw [heq]
    intro x hx
    rcases List.mem_append.mp hx with hx' | hx'
    · rcases bubble_mem hx' with rfl | hx''
      · exact Or.inl rfl
      · exact Or.inr ⟨by rw [hb]; exact List.mem_append_left _ hx'', hpre x hx''⟩
    · refine Or.inr ⟨by rw [hb]; simp [hx'], ?_⟩
      subst hb
      unfold addrsNodup at hn
      have : ((pre ++ f :: suf).map Prod.fst).Nodup := hn
      rw [List.map_append, List.map_cons] at this
      have hfns : f.1 ∉ suf.map Prod.fst := by
        have := (List.nodup_append.mp this).2.1
        exact (List.nodup_cons.mp this).1
      intro hxu
      exact hfns (by rw [hfu, ← hxu]; exact List.mem_map_of_mem Prod.fst hx')
  · rw [heq]
    intro x hx
    rcases bubble_mem hx with rfl | hx'
    · exact Or.inl rfl
    · exact Or.inr ⟨hx', hno x hx'⟩
  · rw [heq]
    intro x hx
    exact Or.inr ⟨hx, hno x hx⟩
  · rw [heq]
    intro x hx
    rcases bubble_mem hx with rfl | hx'
    · exact Or.inl rfl
    · have hxb := List.mem_of_mem_dropLast hx'
      exact Or.inr ⟨hxb, hno x hxb⟩

/-- Stability of one update: either the board is untouched, or the untouched
entries keep their relative order (they form `A ++ B`, a sublist of the old
board) and the moved entry lands after every remaining entry whose score is
greater than or equal to its new score (all of `B` is strictly below `c`): the
strict `>` bubble comparison never reorders equal scores. -/
theorem updateTopLeaderboard_stable {board : List Entry} {u : Addr} {c : Nat}
    (hs : sortedBoard board) (hsc : ∀ sc, (u, sc) ∈ board → sc < c) :
    updateTopLeaderboard board u c = board ∨
    ∃ A B, (A ++ B).Sublist board ∧
      updateTopLeaderboard board u c = A ++ (u, c) :: B ∧ ∀ x ∈ B, x.2 < c := by
  rcases updateTopLeaderboard_char board u c with
    ⟨pre, f, suf, hb, hfu, hpre, heq⟩ | ⟨-, -, heq⟩ | ⟨-, -, -, heq⟩ | ⟨-, -, -, heq⟩
  · obtain ⟨A, B, hpre', hbub, hB, -⟩ := bubble_split pre (u, c)
    refine Or.inr ⟨A, B ++ suf, ?_, ?_, ?_⟩
    · rw [← List.append_assoc, ← hpre', hb]
      exact (List.sublist_cons_self f suf).append_left pre
    · rw [heq, hbub]
      simp
    · intro x hx
      rcases List.mem_append.mp hx with hx' | hx'
      · exact hB x hx'
      · have hfc : f.2 < c := by
          refine hsc f.2 ?_
          have : f = (u, f.2) := by
            cases f
            simp at hfu
            simp [hfu]
          rw [hb, ← this]
          simp
        subst hb
        unfold sortedBoard at hs
        rw [List.pairwise_append] at hs
        have := (List.pairwise_cons.mp hs.2.1).1 x hx'
        omega
  · obtain ⟨A, B, hpre', hbub, hB, -⟩ := bubble_split board (u, c)
    refine Or.inr ⟨A, B, by rw [← hpre'], by rw [heq, hbub], hB⟩
  · exact Or.inl heq
  · obtain ⟨A, B, hpre', hbub, hB, -⟩ := bubble_split board.dropLast (u, c)
    refine Or.inr ⟨A, B, ?_, by rw [heq, hbub], hB⟩
    rw [← hpre']
    exact List.dropLast_sublist board

/-! ### Contract state and calls -/

/-- `struct UserStats`. -/
structure UserStats where
  increments : Nat := 0
  decrements : Nat := 0
  lastActionTime : Nat := 0
  badgeTier : Nat := 0
deriving DecidableEq, Repr

/-- The storage of `EvolvingNexusCounter`. `mintedCount` is a ghost counter
of how many `_safeMint` calls the address has received (not contract storage;
it exists to state "at most one token is ever minted per address"). -/
structure ContractState where
  owner : Addr
  fee : Nat
  count : Nat
  incrementCount : Addr → Nat
  board : List Entry
  nextTokenId : Nat
  userStats : Addr → UserStats
  userTokenId : Addr → Nat
  mintedCount : Addr → Nat
  bronzeThreshold : Nat
  silverThreshold : Nat
  goldThreshold : Nat
  platinumThreshold : Nat
  diamondThreshold : Nat
  masterThreshold : Nat
  legendaryThreshold : Nat

/-- Pointwise mapping update. -/
def updMap {α : Type} (m : Addr → α) (a : Addr) (v : α) : Addr → α :=
  fun x => if x = a then v else m x

/-- The post-constructor storage: thresholds at their declared initial
values, `nextTokenId = 1`, everything else zero / empty. -/
def initialState (own fe : Nat) : ContractState where
  owner := own
  fee := fe
  count := 0
  incrementCount := fun _ => 0
  board := []
  nextTokenId := 1
  userStats := fun _ => {}
  userTokenId := fun _ => 0
  mintedCount := fun _ => 0
  bronzeThreshold := 10
  silverThreshold := 25
  goldThreshold := 50
  platinumThreshold := 100
  diamondThreshold := 250
  masterThreshold := 500
  legendaryThreshold := 1000

/-- The if-cascade of `_determineTier`, on the seven threshold storage reads:
first threshold reached from the top, inclusively. -/
def tierOf (bronze silver gold platinum diamond master legendary increments : Nat) :
    Nat :=
  if legendary ≤ increments then 7
  else if master ≤ increments then 6
  else if diamond ≤ increments then 5
  else if platinum ≤ increments then 4
  else if gold ≤ increments then 3
  else if silver ≤ increments then 2
  else if bronze ≤ increments then 1
  else 0

/-- `_determineTier(increments)` against the current storage thresholds. -/
def determineTier (s : ContractState) (increments : Nat) : Nat :=
  tierOf s.bronzeThreshold s.silverThreshold s.goldThreshold s.platinumThreshold
    s.diamondThreshold s.masterThreshold s.legendaryThreshold increments

/-- `_assignOrUpdateBadge(user)`: store the recomputed tier only when it is
strictly greater, and mint one token the first time, guarded by
`userTokenId[user] == 0`. -/
def assignOrUpdateBadge (s : ContractState) (user : Addr) : ContractState :=
  let tier := determineTier s (s.userStats user).increments
  if (s.userStats user).badgeTier < tier then
    let s1 := { s with
      userStats := updMap s.userStats user { s.userStats user with badgeTier := tier } }
    if s1.userTokenId user = 0 then
      { s1 with
        nextTokenId := s1.nextTokenId + 1,
        userTokenId := updMap s1.userTokenId user s1.nextTokenId,
        mintedCount := updMap s1.mintedCount user (s1.mintedCount user + 1) }
    else s1
  else s

/-- Guard of the `timeLocked` modifier. -/
def cooldownPassed (s : ContractState) (sender : Addr) (now : Nat) : Bool :=
  (s.userStats sender).lastActionTime + COOLDOWN_SECONDS ≤ now

/-- The body of `increment()` once every guard has passed, in source order:
`count += 1`, `incrementCount[sender] += 1`, leaderboard update with the new
count, `increments += 1`, badge recompute, and the `timeLocked` modifier's
trailing `lastActionTime = block.timestamp`. -/
def incrementBody (s : ContractState) (sender : Addr) (now : Nat) : ContractState :=
  let s1 := { s with
    count := s.count + 1,
    incrementCount := updMap s.incrementCount sender (s.incrementCount sender + 1) }
  let s2 := { s1 with
    board := updateTopLeaderboard s1.board sender (s1.incrementCount sender) }
  let s3 := { s2 with
    userStats := updMap s2.userStats sender
      { s2.userStats sender with increments := (s2.userStats sender).increments + 1 } }
  let s4 := assignOrUpdateBadge s3 sender
  { s4 with
    userStats := updMap s4.userStats sender
      { s4.userStats sender with lastActionTime := now } }

/-- `increment()`: `onlyPaid` (exact fee), `timeLocked` (cooldown), and the
uint256 checked-arithmetic bounds; a revert anywhere is `none` (atomic). -/
def increment (s : ContractState) (sender value now : Nat) : Option ContractState :=
  if value ≠ s.fee then none
  else if ¬ cooldownPassed s sender now then none
  else if ¬ (s.count + 1 < U256 ∧ s.incrementCount sender + 1 < U256 ∧
             (s.userStats sender).increments + 1 < U256) then none
  else some (incrementBody s sender now)

/-- The body of `decrement()` once every guard has passed, in source order. -/
def decrementBody (s : ContractState) (sender : Addr) (now : Nat) : ContractState :=
  let s1 := { s with
    count := s.count - 1,
    incrementCount := updMap s.incrementCount sender (s.incrementCount sender + 1) }
  let s2 := { s1 with
    board := updateTopLeaderboard s1.board sender (s1.incrementCount sender) }
  let s3 := { s2 with
    userStats := updMap s2.userStats sender
      { s2.userStats sender with decrements := (s2.userStats sender).decrements + 1 } }
  let s4 := assignOrUpdateBadge s3 sender
  { s4 with
    userStats := updMap s4.userStats sender
      { s4.userStats sender with lastActionTime := now } }

/-- `decrement()`: as `increment()` plus `require(count > 0)`. -/
def decrement (s : ContractState) (sender value now : Nat) : Option ContractState :=
  if value ≠ s.fee then none
  else if ¬ cooldownPassed s sender now then none
  else if ¬ 0 < s.count then none
  else if ¬ (s.incrementCount sender + 1 < U256 ∧
             (s.userStats sender).decrements + 1 < U256) then none
  else some (decrementBody s sender now)

/-- `setFee(newFee)`, `onlyOwner`. -/
def setFee (s : ContractState) (sender newFee : Nat) : Option ContractState :=
  if sender = s.owner then some { s with fee := newFee } else none

/-- `resetCounter(newValue)`, `onlyOwner`. -/
def resetCounter (s : ContractState) (sender newValue : Nat) : Option ContractState :=
  if sender = s.owner then some { s with count := newValue } else none

/-- `setBadgeThresholds(...)`, `onlyOwner`. -/
def setBadgeThresholds (s : ContractState) (sender b si go pl di ma le : Nat) :
    Option ContractState :=
  if sender = s.owner then
    some { s with
      bronzeThreshold := b, silverThreshold := si, goldThreshold := go,
      platinumThreshold := pl, diamondThreshold := di, masterThreshold := ma,
      legendaryThreshold := le }
  else none

/-- One external mutating call with its arguments and block timestamp. -/
inductive Act where
  | inc (sender value now : Nat)
  | dec (sender value now : Nat)
  | setFee (sender newFee : Nat)
  | resetCounter (sender newValue : Nat)
  | setThresholds (sender b si go pl di ma le : Nat)

/-- Dispatch one call. -/
def callAct (s : ContractState) : Act → Option ContractState
  | .inc sender value now => increment s sender value now
  | .dec sender value now => decrement s sender value now
  | .setFee sender newFee => setFee s sender newFee
  | .resetCounter sender newValue => resetCounter s sender newValue
  | .setThresholds sender b si go pl di ma le =>
      setBadgeThresholds s sender b si go pl di ma le

/-- A reverted call leaves the ledger untouched. -/
def execOne (s : ContractState) (a : Act) : ContractState :=
  (callAct s a).getD s

/-- Run a sequence of calls. -/
def exec (s : ContractState) (acts : List Act) : ContractState :=
  acts.foldl execOne s

/-! ### What `_assignOrUpdateBadge` touches -/

theorem assignBadge_board (s : ContractState) (u : Addr) :
    (assignOrUpdateBadge s u).board = s.board := by
  simp only [assignOrUpdateBadge]
  split_ifs <;> rfl

theorem assignBadge_incrementCount (s : ContractState) (u : Addr) :
    (assignOrUpdateBadge s u).incrementCount = s.incrementCount := by
  simp only [assignOrUpdateBadge]
  split_ifs <;> rfl

theorem assignBadge_count (s : ContractState) (u : Addr) :
    (assignOrUpdateBadge s u).count = s.count := by
  simp only [assignOrUpdateBadge]
  split_ifs <;> rfl

theorem assignBadge_fee (s : ContractState) (u : Addr) :
    (assignOrUpdateBadge s u).fee = s.fee := by
  simp only [assignOrUpdateBadge]
  split_ifs <;> rfl

theorem assignBadge_owner (s : ContractState) (u : Addr) :
    (assignOrUpdateBadge s u).owner = s.owner := by
  simp only [assignOrUpdateBadge]
  split_ifs <;> rfl

theorem assignBadge_userStats (s : ContractState) (u a : Addr) :
    (assignOrUpdateBadge s u).userStats a =
      if (s.userStats u).badgeTier < determineTier s (s.userStats u).increments ∧ a = u
      then { s.userStats u with
               badgeTier := determineTier s (s.userStats u).increments }
      else s.userStats a := by
  simp only [assignOrUpdateBadge]
  split_ifs with h1 h2 <;> by_cases ha : a = u <;>
    simp_all [updMap]

theorem assignBadge_tier (s : ContractState) (u a : Addr) :
    ((assignOrUpdateBadge s u).userStats a).badgeTier =
      if a = u
      then max (s.userStats u).badgeTier (determineTier s (s.userStats u).increments)
      else (s.userStats a).badgeTier := by
  rw [assignBadge_userStats]
  by_cases hlt : (s.userStats u).badgeTier < determineTier s (s.userStats u).increments <;>
    by_cases ha : a = u <;> simp [hlt, ha] <;> omega

theorem assignBadge_tokenId (s : ContractState) (u a : Addr) :
    (assignOrUpdateBadge s u).userTokenId a =
      if (s.userStats u).badgeTier < determineTier s (s.userStats u).increments ∧
         s.userTokenId u = 0 ∧ a = u
      then s.nextTokenId else s.userTokenId a := by
  simp only [assignOrUpdateBadge]
  split_ifs with h1 h2 h3 h4 <;> by_cases ha : a = u <;>
    simp_all [updMap]

theorem assignBadge_minted (s : ContractState) (u a : Addr) :
    (assignOrUpdateBadge s u).mintedCount a =
      if (s.userStats u).badgeTier < determineTier s (s.userStats u).increments ∧
         s.userTokenId u = 0 ∧ a = u
      then s.mintedCount u + 1 else s.mintedCount a := by
  simp only [assignOrUpdateBadge]
  split_ifs with h1 h2 h3 h4 <;> by_cases ha : a = u <;>
    simp_all [updMap]

theorem assignBadge_nextTokenId (s : ContractState) (u : Addr) :
    s.nextTokenId ≤ (assignOrUpdateBadge s u).nextTokenId := by
  simp only [assignOrUpdateBadge]
  split_ifs <;> simp

/-! ### What the call bodies do, field by field -/

theorem incrementBody_count (s : ContractState) (sender now : Nat) :
    (incrementBody s sender now).count = s.count + 1 := by
  unfold incrementBody
  simp [assignBadge_count]

theorem incrementBody_incrementCount (s : ContractState) (sender now : Nat) :
    (incrementBody s sender now).incrementCount =
      updMap s.incrementCount sender (s.incrementCount sender + 1) := by
  unfold incrementBody
  simp [assignBadge_incrementCount]

theorem incrementBody_board (s : ContractState) (sender now : Nat) :
    (incrementBody s sender now).board =
      updateTopLeaderboard s.board sender (s.incrementCount sender + 1) := by
  unfold incrementBody
  simp [assignBadge_board, updMap]

theorem incrementBody_fee (s : ContractState) (sender now : Nat) :
    (incrementBody s sender now).fee = s.fee := by
  unfold incrementBody
  simp [assignBadge_fee]

theorem incrementBody_userStats (s : ContractState) (sender now : Nat) (a : Addr) :
    (incrementBody s sender now).userStats a =
      if a = sender then
        { increments := (s.userStats sender).increments + 1,
          decrements := (s.userStats sender).decrements,
          lastActionTime := now,
          badgeTier := max (s.userStats sender).badgeTier
            (determineTier s ((s.userStats sender).increments + 1)) }
      else s.userStats a := by
  unfold incrementBody
  by_cases ha : a = sender <;>
    simp [assignBadge_userStats, updMap, ha, determineTier, UserStats.mk.injEq] <;>
    split_ifs <;> simp_all <;> omega

theorem incrementBody_tokenId (s : ContractState) (sender now : Nat) (a : Addr) :
    (incrementBody s sender now).userTokenId a =
      if (s.userStats sender).badgeTier <
           determineTier s ((s.userStats sender).increments + 1) ∧
         s.userTokenId sender = 0 ∧ a = sender
      then s.nextTokenId else s.userTokenId a := by
  unfold incrementBody
  simp [assignBadge_tokenId, updMap, determineTier]

theorem incrementBody_minted (s : ContractState) (sender now : Nat) (a : Addr) :
    (incrementBody s sender now).mintedCount a =
      if (s.userStats sender).badgeTier <
           determineTier s ((s.userStats sender).increments + 1) ∧
         s.userTokenId sender = 0 ∧ a = sender
      then s.mintedCount sender + 1 else s.mintedCount a := by
  unfold incrementBody
  simp [assignBadge_minted, updMap, determineTier]

theorem incrementBody_nextTokenId (s : ContractState) (sender now : Nat) :
    s.nextTokenId ≤ (incrementBody s sender now).nextTokenId := by
  unfold incrementBody
  have := assignBadge_nextTokenId
    { s with
      count := s.count + 1,
      incrementCount := updMap s.incrementCount sender (s.incrementCount sender + 1),
      board := updateTopLeaderboard s.board sender
        (updMap s.incrementCount sender (s.incrementCount sender + 1) sender),
      userStats := updMap s.userStats sender
        { s.userStats sender with increments := (s.userStats sender).increments + 1 } }
    sender
  simpa using this

theorem decrementBody_count (s : ContractState) (sender now : Nat) :
    (decrementBody s sender now).count = s.count - 1 := by
  unfold decrementBody
  simp [assignBadge_count]

theorem decrementBody_incrementCount (s : ContractState) (sender now : Nat) :
    (decrementBody s sender now).incrementCount =
      updMap s.incrementCount sender (s.incrementCount sender + 1) := by
  unfold decrementBody
  simp [assignBadge_incrementCount]

theorem decrementBody_board (s : ContractState) (sender now : Nat) :
    (decrementBody s sender now).board =
      updateTopLeaderboard s.board sender (s.incrementCount sender + 1) := by
  unfold decrementBody
  simp [assignBadge_board, updMap]

theorem decrementBody_fee (s : ContractState) (sender now : Nat) :
    (decrementBody s sender now).fee = s.fee := by
  unfold decrementBody
  simp [assignBadge_fee]

theorem decrementBody_userStats (s : ContractState) (sender now : Nat) (a : Addr) :
    (decrementBody s sender now).userStats a =
      if a = sender then
        { increments := (s.userStats sender).increments,
          decrements := (s.userStats sender).decrements + 1,
          lastActionTime := now,
          badgeTier := max (s.userStats sender).badgeTier
            (determineTier s (s.userStats sender).increments) }
      else s.userStats a := by
  unfold decrementBody
  by_cases ha : a = sender <;>
    simp [assignBadge_userStats, updMap, ha, determineTier, UserStats.mk.injEq] <;>
    split_ifs <;> simp_all <;> omega

theorem decrementBody_tokenId (s : ContractState) (sender now : Nat) (a : Addr) :
    (decrementBody s sender now).userTokenId a =
      if (s.userStats sender).badgeTier <
           determineTier s (s.userStats sender).increments ∧
         s.userTokenId sender = 0 ∧ a = sender
      then s.nextTokenId else s.userTokenId a := by
  unfold decrementBody
  simp [assignBadge_tokenId, updMap, determineTier]

theorem decrementBody_minted (s : ContractState) (sender now : Nat) (a : Addr) :
    (decrementBody s sender now).mintedCount a =
      if (s.userStats sender).badgeTier <
           determineTier s (s.userStats sender).increments ∧
         s.userTokenId sender = 0 ∧ a = sender
      then s.mintedCount sender + 1 else s.mintedCount a := by
  unfold decrementBody
  simp [assignBadge_minted, updMap, determineTier]

theorem decrementBody_nextTokenId (s : ContractState) (sender now : Nat) :
    s.nextTokenId ≤ (decrementBody s sender now).nextTokenId := by
  unfold decrementBody
  have := assignBadge_nextTokenId
    { s with
      count := s.count - 1,
      incrementCount := updMap s.incrementCount sender (s.incrementCount sender + 1),
      board := updateTopLeaderboard s.board sender
        (updMap s.incrementCount sender (s.incrementCount sender + 1) sender),
      userStats := updMap s.userStats sender
        { s.userStats sender with decrements := (s.userStats sender).decrements + 1 } }
    sender
  simpa using this

/-! ### The reachable-state invariant -/

/-- The leaderboard shape invariant of the spec's §3. -/
def boardOk (s : ContractState) : Prop :=
  sortedBoard s.board ∧ addrsNodup s.board ∧ s.board.length ≤ MAX_TOP

/-- Every slot's stored score is its address's current `incrementCount`:
each action of an on-board address rewrites its slot in the same call. -/
def scoreSync (s : ContractState) : Prop :=
  ∀ e ∈ s.board, e.2 = s.incrementCount e.1

/-- `incrementCount` counts all successful actions: both `increment()` and
`decrement()` add 1 to it. -/
def actSum (s : ContractState) : Prop :=
  ∀ a, s.incrementCount a = (s.userStats a).increments + (s.userStats a).decrements

/-- Badge bookkeeping: an address owns a token exactly when its stored tier
is positive, and the number of mints it ever received is 0 or 1 accordingly. -/
def badgeOk (s : ContractState) : Prop :=
  1 ≤ s.nextTokenId ∧ ∀ a,
    ((s.userTokenId a = 0) ↔ (s.userStats a).badgeTier = 0) ∧
    s.mintedCount a = if (s.userStats a).badgeTier = 0 then 0 else 1

/-- All invariants of reachable contract states. -/
def Inv (s : ContractState) : Prop :=
  boardOk s ∧ scoreSync s ∧ actSum s ∧ badgeOk s

/-- `badgeOk` survives any state change of the `_assignOrUpdateBadge` shape:
tier replaced by `max` with some recomputed value, token minted under the
`userTokenId == 0` guard, fresh token ids. -/
theorem badgeOk_step {s t : ContractState} (hb : badgeOk s) (u : Addr) (tierNew : Nat)
    (hnext : s.nextTokenId ≤ t.nextTokenId)
    (htok : ∀ a, t.userTokenId a =
      if (s.userStats u).badgeTier < tierNew ∧ s.userTokenId u = 0 ∧ a = u
      then s.nextTokenId else s.userTokenId a)
    (hmint : ∀ a, t.mintedCount a =
      if (s.userStats u).badgeTier < tierNew ∧ s.userTokenId u = 0 ∧ a = u
      then s.mintedCount u + 1 else s.mintedCount a)
    (htier : ∀ a, (t.userStats a).badgeTier =
      if a = u then max (s.userStats u).badgeTier tierNew
      else (s.userStats a).badgeTier) :
    badgeOk t := by
  obtain ⟨h1, h2⟩ := hb
  refine ⟨le_trans h1 hnext, ?_⟩
  intro a
  obtain ⟨hiffa, hcnta⟩ := h2 a
  obtain ⟨hiffu, hcntu⟩ := h2 u
  rw [htok a, hmint a, htier a]
  by_cases ha : a = u
  · subst ha
    simp only [eq_self_iff_true, and_true, if_true]
    by_cases hlt : (s.userStats a).badgeTier < tierNew
    · by_cases htk : s.userTokenId a = 0
      · have hbt0 : (s.userStats a).badgeTier = 0 := hiffa.mp htk
        rw [if_pos hbt0] at hcnta
        have hC2 : (s.userStats a).badgeTier < tierNew ∧ s.userTokenId a = 0 :=
          ⟨hlt, htk⟩
        rw [if_pos hC2, if_pos hC2, hbt0, Nat.zero_max]
        rw [hbt0] at hlt
        rw [if_neg (by omega : ¬ tierNew = 0)]
        omega
      · have hbt : (s.userStats a).badgeTier ≠ 0 := fun h0 => htk (hiffa.mpr h0)
        rw [if_neg hbt] at hcnta
        have hnC : ¬ ((s.userStats a).badgeTier < tierNew ∧ s.userTokenId a = 0) :=
          fun hC => htk hC.2
        rw [if_neg hnC, if_neg hnC, Nat.max_eq_right (Nat.le_of_lt hlt)]
        have htnz : ¬ tierNew = 0 := by omega
        rw [if_neg htnz]
        exact ⟨⟨fun h0 => absurd h0 htk, fun h0 => absurd h0 htnz⟩, hcnta⟩
    · have hnC : ¬ ((s.userStats a).badgeTier < tierNew ∧ s.userTokenId a = 0) :=
        fun hC => hlt hC.1
      rw [if_neg hnC, if_neg hnC, Nat.max_eq_left (Nat.le_of_not_lt hlt)]
      exact ⟨hiffa, hcnta⟩
  · have hnC : ¬ ((s.userStats u).badgeTier < tierNew ∧
        s.userTokenId u = 0 ∧ a = u) := fun hC => ha hC.2.2
    rw [if_neg hnC, if_neg hnC, if_neg ha]
    exact ⟨hiffa, hcnta⟩

theorem assignBadge_badgeOk {s : ContractState} (hb : badgeOk s) (u : Addr) :
    badgeOk (assignOrUpdateBadge s u) :=
  badgeOk_step hb u (determineTier s (s.userStats u).increments)
    (assignBadge_nextTokenId s u) (assignBadge_tokenId s u)
    (assignBadge_minted s u) (assignBadge_tier s u)

theorem incrementBody_badgeOk {s : ContractState} (hb : badgeOk s)
    (sender now : Nat) : badgeOk (incrementBody s sender now) :=
  badgeOk_step hb sender (determineTier s ((s.userStats sender).increments + 1))
    (incrementBody_nextTokenId s sender now) (incrementBody_tokenId s sender now)
    (incrementBody_minted s sender now)
    (fun a => by
      rw [incrementBody_userStats]
      by_cases ha : a = sender <;> simp [ha])

theorem decrementBody_badgeOk {s : ContractState} (hb : badgeOk s)
    (sender now : Nat) : badgeOk (decrementBody s sender now) :=
  badgeOk_step hb sender (determineTier s (s.userStats sender).increments)
    (decrementBody_nextTokenId s sender now) (decrementBody_tokenId s sender now)
    (decrementBody_minted s sender now)
    (fun a => by
      rw [decrementBody_userStats]
      by_cases ha : a = sender <;> simp [ha])

theorem incrementBody_Inv {s : ContractState} (h : Inv s) (sender now : Nat) :
    Inv (incrementBody s sender now) := by
  obtain ⟨⟨hs, hn, hl⟩, hsync, hsum, hbadge⟩ := h
  have hB := incrementBody_board s sender now
  have hIC := incrementBody_incrementCount s sender now
  refine ⟨⟨?_, ?_, ?_⟩, ?_, ?_, incrementBody_badgeOk hbadge sender now⟩
  · rw [hB]
    refine updateTopLeaderboard_sorted hs ?_
    intro sc hsc
    have := hsync (sender, sc) hsc
    simp at this
    omega
  · rw [hB]
    exact updateTopLeaderboard_nodup hn
  · rw [hB]
    exact updateTopLeaderboard_length hl
  · intro e he
    rw [hB] at he
    rw [hIC]
    rcases updateTopLeaderboard_mem hn e he with rfl | ⟨hmem, hne⟩
    · simp [updMap]
    · simp only [updMap, if_neg hne]
      exact hsync e hmem
  · intro a
    rw [hIC, incrementBody_userStats]
    by_cases ha : a = sender
    · subst ha
      simp [updMap]
      have := hsum a
      omega
    · simp only [updMap, if_neg ha]
      exact hsum a

theorem decrementBody_Inv {s : ContractState} (h : Inv s) (sender now : Nat) :
    Inv (decrementBody s sender now) := by
  obtain ⟨⟨hs, hn, hl⟩, hsync, hsum, hbadge⟩ := h
  have hB := decrementBody_board s sender now
  have hIC := decrementBody_incrementCount s sender now
  refine ⟨⟨?_, ?_, ?_⟩, ?_, ?_, decrementBody_badgeOk hbadge sender now⟩
  · rw [hB]
    refine updateTopLeaderboard_sorted hs ?_
    intro sc hsc
    have := hsync (sender, sc) hsc
    simp at this
    omega
  · rw [hB]
    exact updateTopLeaderboard_nodup hn
  · rw [hB]
    exact updateTopLeaderboard_length hl
  · intro e he
    rw [hB] at he
    rw [hIC]
    rcases updateTopLeaderboard_mem hn e he with rfl | ⟨hmem, hne⟩
    · simp [updMap]
    · simp only [updMap, if_neg hne]
      exact hsync e hmem
  · intro a
    rw [hIC, decrementBody_userStats]
    by_cases ha : a = sender
    · subst ha
      simp [updMap]
      have := hsum a
      omega
    · simp only [updMap, if_neg ha]
      exact hsum a

theorem execOne_Inv {s : ContractState} (h : Inv s) (act : Act) :
    Inv (execOne s act) := by
  cases act with
  | inc sender value now =>
      simp only [execOne, callAct, increment]
      split_ifs <;> simp only [Option.getD_none, Option.getD_some] <;>
        first
          | exact h
          | exact incrementBody_Inv h sender now
  | dec sender value now =>
      simp only [execOne, callAct, decrement]
      split_ifs <;> simp only [Option.getD_none, Option.getD_some] <;>
        first
          | exact h
          | exact decrementBody_Inv h sender now
  | setFee sender newFee =>
      simp only [execOne, callAct, setFee]
      split_ifs <;> simp only [Option.getD_none, Option.getD_some] <;> exact h
  | resetCounter sender newValue =>
      simp only [execOne, callAct, resetCounter]
      split_ifs <;> simp only [Option.getD_none, Option.getD_some] <;> exact h
  | setThresholds sender b si go pl di ma le =>
      simp only [execOne, callAct, setBadgeThresholds]
      split_ifs <;> simp only [Option.getD_none, Option.getD_some] <;> exact h

theorem exec_Inv {s : ContractState} (h : Inv s) (acts : List Act) :
    Inv (exec s acts) := by
  induction acts generalizing s with
  | nil => exact h
  | cons a rest ih => exact ih (execOne_Inv h a)

theorem initialState_Inv (own fe : Nat) : Inv (initialState own fe) := by
  refine ⟨⟨?_, ?_, ?_⟩, ?_, ?_, ?_, ?_⟩ <;>
    simp [initialState, sortedBoard, addrsNodup, scoreSync, actSum]

/-! ### Per-call facts feeding the claims -/

theorem increment_some {s s' : ContractState} {sender value now : Nat}
    (h : increment s sender value now = some s') :
    s' = incrementBody s sender now := by
  simp only [increment] at h
  split_ifs at h <;> cases h
  rfl

theorem decrement_some {s s' : ContractState} {sender value now : Nat}
    (h : decrement s sender value now = some s') :
    s' = decrementBody s sender now := by
  simp only [decrement] at h
  split_ifs at h <;> cases h
  rfl

theorem increment_wrong_fee {s : ContractState} {sender value now : Nat}
    (h : value ≠ s.fee) : increment s sender value now = none := by
  simp [increment, h]

theorem decrement_wrong_fee {s : ContractState} {sender value now : Nat}
    (h : value ≠ s.fee) : decrement s sender value now = none := by
  simp [decrement, h]

theorem increment_cooldown {s : ContractState} {sender value now : Nat}
    (h : now < (s.userStats sender).lastActionTime + COOLDOWN_SECONDS) :
    increment s sender value now = none := by
  have hc : ¬ cooldownPassed s sender now = true := by
    simp [cooldownPassed]
    omega
  by_cases hf : value ≠ s.fee <;> simp [increment, hf, hc]

theorem decrement_cooldown {s : ContractState} {sender value now : Nat}
    (h : now < (s.userStats sender).lastActionTime + COOLDOWN_SECONDS) :
    decrement s sender value now = none := by
  have hc : ¬ cooldownPassed s sender now = true := by
    simp [cooldownPassed]
    omega
  by_cases hf : value ≠ s.fee <;> simp [decrement, hf, hc]

theorem decrement_at_zero {s : ContractState} {sender value now : Nat}
    (h : s.count = 0) : decrement s sender value now = none := by
  have hz : ¬ 0 < s.count := by omega
  by_cases hf : value ≠ s.fee <;>
    by_cases hc : cooldownPassed s sender now = true <;>
      simp [decrement, hf, hc, hz]

theorem execOne_of_none {s : ContractState} {act : Act}
    (h : callAct s act = none) : execOne s act = s := by
  simp [execOne, h]

theorem execOne_tier_mono (s : ContractState) (act : Act) (a : Addr) :
    (s.userStats a).badgeTier ≤ ((execOne s act).userStats a).badgeTier := by
  cases act with
  | inc sender value now =>
      simp only [execOne, callAct, increment]
      split_ifs <;> simp only [Option.getD_none, Option.getD_some] <;>
        first
          | exact le_refl _
          | (rw [incrementBody_userStats]
             by_cases ha : a = sender
             · subst ha
               simpa using le_max_left (s.userStats sender).badgeTier
                 (determineTier s ((s.userStats sender).increments + 1))
             · simp [ha])
  | dec sender value now =>
      simp only [execOne, callAct, decrement]
      split_ifs <;> simp only [Option.getD_none, Option.getD_some] <;>
        first
          | exact le_refl _
          | (rw [decrementBody_userStats]
             by_cases ha : a = sender
             · subst ha
               simpa using le_max_left (s.userStats sender).badgeTier
                 (determineTier s (s.userStats sender).increments)
             · simp [ha])
  | setFee sender newFee =>
      simp only [execOne, callAct, setFee]
      split_ifs <;> simp only [Option.getD_none, Option.getD_some] <;> exact le_refl _
  | resetCounter sender newValue =>
      simp only [execOne, callAct, resetCounter]
      split_ifs <;> simp only [Option.getD_none, Option.getD_some] <;> exact le_refl _
  | setThresholds sender b si go pl di ma le =>
      simp only [execOne, callAct, setBadgeThresholds]
      split_ifs <;> simp only [Option.getD_none, Option.getD_some] <;> exact le_refl _

theorem exec_tier_mono (s : ContractState) (acts : List Act) (a : Addr) :
    (s.userStats a).badgeTier ≤ ((exec s acts).userStats a).badgeTier := by
  induction acts generalizing s with
  | nil => exact le_refl _
  | cons act rest ih =>
      exact le_trans (execOne_tier_mono s act a) (ih (execOne s act))

theorem execOne_board_stable {s : ContractState} (h : Inv s) (act : Act) :
    (execOne s act).board = s.board ∨
    ∃ A B u c, (A ++ B).Sublist s.board ∧
      (execOne s act).board = A ++ (u, c) :: B ∧ ∀ x ∈ B, x.2 < c := by
  obtain ⟨⟨hs, hn, hl⟩, hsync, -, -⟩ := h
  cases act with
  | inc sender value now =>
      simp only [execOne, callAct, increment]
      split_ifs <;>
        first
          | exact Or.inl rfl
          | (simp only [Option.getD_some]
             have hlt : ∀ sc, (sender, sc) ∈ s.board →
                sc < s.incrementCount sender + 1 := by
               intro sc hsc
               have := hsync (sender, sc) hsc
               simp at this
               omega
             rcases updateTopLeaderboard_stable hs hlt with heq | ⟨A, B, hsub, heq, hB⟩
             · exact Or.inl (by rw [incrementBody_board]; exact heq)
             · exact Or.inr ⟨A, B, sender, s.incrementCount sender + 1, hsub,
                 by rw [incrementBody_board]; exact heq, hB⟩)
  | dec sender value now =>
      simp only [execOne, callAct, decrement]
      split_ifs <;>
        first
          | exact Or.inl rfl
          | (simp only [Option.getD_some]
             have hlt : ∀ sc, (sender, sc) ∈ s.board →
                sc < s.incrementCount sender + 1 := by
               intro sc hsc
               have := hsync (sender, sc) hsc
               simp at this
               omega
             rcases updateTopLeaderboard_stable hs hlt with heq | ⟨A, B, hsub, heq, hB⟩
             · exact Or.inl (by rw [decrementBody_board]; exact heq)
             · exact Or.inr ⟨A, B, sender, s.incrementCount sender + 1, hsub,
                 by rw [decrementBody_board]; exact heq, hB⟩)
  | setFee sender newFee =>
      simp only [execOne, callAct, setFee]
      split_ifs <;> exact Or.inl rfl
  | resetCounter sender newValue =>
      simp only [execOne, callAct, resetCounter]
      split_ifs <;> exact Or.inl rfl
  | setThresholds sender b si go pl di ma le =>
      simp only [execOne, callAct, setBadgeThresholds]
      split_ifs <;> exact Or.inl rfl

theorem minted_step_of_badgeOk {s t : ContractState} (hs : badgeOk s) (ht : badgeOk t)
    (hmono : (s.userStats a).badgeTier ≤ (t.userStats a).badgeTier) :
    t.mintedCount a = s.mintedCount a +
      (if (s.userStats a).badgeTier = 0 ∧ 0 < (t.userStats a).badgeTier
       then 1 else 0) := by
  have h1 := (hs.2 a).2
  have h2 := (ht.2 a).2
  by_cases h0 : (s.userStats a).badgeTier = 0 <;>
    by_cases h4 : (t.userStats a).badgeTier = 0 <;>
      simp [h0, h4, Nat.pos_iff_ne_zero] at h1 h2 ⊢ <;> omega

/-! ### The client auto-refresh scheduler

The browser client is single-threaded: a `setInterval` callback runs its
synchronous prefix atomically, then suspends at its `await`s until the work
completes.  `tick` is the firing of one interval callback, `finishCycle` the
completion (the `finally` block) of one in-flight refresh cycle, and
`inFlight` counts cycles that have started and not yet completed.
`guardedStep` is the loop of src/unnamed/part_000 (`if (userAddress &&
!isRefreshing) { isRefreshing = true; ... } finally { isRefreshing = false }`);
`unguardedStep` is the loop of src/main.js, whose callback checks only
`userAddress` and sets no flag. -/

structure ClientState where
  userConnected : Bool
  isRefreshing : Bool
  inFlight : Nat
deriving DecidableEq, Repr

inductive ClientEvent where
  | tick
  | finishCycle
  | connect
  | disconnect

def clientInit : ClientState :=
  { userConnected := false, isRefreshing := false, inFlight := 0 }

def guardedStep (s : ClientState) : ClientEvent → ClientState
  | .tick =>
      if s.userConnected && !s.isRefreshing then
        { s with isRefreshing := true, inFlight := s.inFlight + 1 }
      else s
  | .finishCycle =>
      if 0 < s.inFlight then
        { s with isRefreshing := false, inFlight := s.inFlight - 1 }
      else s
  | .connect => { s with userConnected := true }
  | .disconnect => { s with userConnected := false }

def unguardedStep (s : ClientState) : ClientEvent → ClientState
  | .tick =>
      if s.userConnected then { s with inFlight := s.inFlight + 1 } else s
  | .finishCycle =>
      if 0 < s.inFlight then { s with inFlight := s.inFlight - 1 } else s
  | .connect => { s with userConnected := true }
  | .disconnect => { s with userConnected := false }

def guardedRun (evs : List ClientEvent) : ClientState :=
  evs.foldl guardedStep clientInit

def unguardedRun (evs : List ClientEvent) : ClientState :=
  evs.foldl unguardedStep clientInit

theorem guardedStep_inv {s : ClientState}
    (h : s.inFlight = if s.isRefreshing then 1 else 0) (e : ClientEvent) :
    (guardedStep s e).inFlight =
      if (guardedStep s e).isRefreshing then 1 else 0 := by
  by_cases hr : s.isRefreshing <;> cases e <;>
    simp_all [guardedStep] <;> split_ifs <;> simp_all <;> omega

theorem guarded_foldl_inv {s : ClientState}
    (h : s.inFlight = if s.isRefreshing then 1 else 0) (evs : List ClientEvent) :
    (evs.foldl guardedStep s).inFlight =
      if (evs.foldl guardedStep s).isRefreshing then 1 else 0 := by
  induction evs generalizing s with
  | nil => exact h
  | cons e rest ih => exact ih (guardedStep_inv h e)

/-! ### Concrete scenarios from the spec -/

/-- Spec §8: 21 distinct addresses with scores 1..21, ascending by call order
(maintainer-level `update(address, newScore)` calls). -/
def scenarioCalls : List (Addr × Nat) :=
  (List.range 21).map fun k => (k + 1, k + 1)

/-- The board the spec predicts: 20 entries, scores 21 down to 2, the
score-1 address evicted. -/
def scenarioFinal : List Entry :=
  (List.range 20).map fun k => (21 - k, 21 - k)

/-- Spec §8: address 1 calls `increment()` ten times under fee 0, each call
one cooldown apart so no call is blocked. -/
def tenIncrements : List Act :=
  (List.range 10).map fun k => Act.inc 1 0 ((k + 1) * COOLDOWN_SECONDS)

theorem callAct_inc (s : ContractState) (sender value now : Nat) :
    callAct s (Act.inc sender value now) = increment s sender value now := rfl

theorem callAct_dec (s : ContractState) (sender value now : Nat) :
    callAct s (Act.dec sender value now) = decrement s sender value now := rfl

/-! ### The claims -/

/-- C1: after any sequence of calls from deployment the leaderboard is
sorted by score descending (non-increasing; ties allowed and stable), has at
most 20 slots and holds each address at most once; and each further call
either leaves the board untouched or re-places exactly the caller's entry:
the untouched entries keep their relative order (`A ++ B` is a sublist of the
old board) and the moved entry lands only after entries with a score greater
than or equal to its new score (everything in `B` is strictly below it), so
equal scores are never reordered. -/
theorem claim_C1 (own fe : Nat) (acts : List Act) (act : Act) :
    sortedBoard (exec (initialState own fe) acts).board ∧
    addrsNodup (exec (initialState own fe) acts).board ∧
    (exec (initialState own fe) acts).board.length ≤ MAX_TOP ∧
    ((execOne (exec (initialState own fe) acts) act).board =
        (exec (initialState own fe) acts).board ∨
      ∃ A B u c, (A ++ B).Sublist (exec (initialState own fe) acts).board ∧
        (execOne (exec (initialState own fe) acts) act).board = A ++ (u, c) :: B ∧
        ∀ x ∈ B, x.2 < c) := by
  have hInv := exec_Inv (initialState_Inv own fe) acts
  exact ⟨hInv.1.1, hInv.1.2.1, hInv.1.2.2, execOne_board_stable hInv act⟩

/-- C2: the stored badge tier never decreases along any call sequence from
any state, and one `_assignOrUpdateBadge` run replaces the stored tier only
when the recomputed tier is strictly greater. -/
theorem claim_C2 (s : ContractState) (acts : List Act) (a u : Addr) :
    (s.userStats a).badgeTier ≤ ((exec s acts).userStats a).badgeTier ∧
    ((assignOrUpdateBadge s u).userStats u).badgeTier =
      (if (s.userStats u).badgeTier < determineTier s (s.userStats u).increments
       then determineTier s (s.userStats u).increments
       else (s.userStats u).badgeTier) := by
  refine ⟨exec_tier_mono s acts a, ?_⟩
  rw [assignBadge_tier]
  simp only [eq_self_iff_true, if_true]
  by_cases h : (s.userStats u).badgeTier < determineTier s (s.userStats u).increments
  · rw [if_pos h, Nat.max_eq_right (Nat.le_of_lt h)]
  · rw [if_neg h, Nat.max_eq_left (Nat.le_of_not_lt h)]

/-- C3: in any reachable state an address has received at most one mint,
exactly one iff its stored tier is positive, and one further call mints for
it exactly when that call moves its tier from 0 to a positive value. -/
theorem claim_C3 (own fe : Nat) (acts : List Act) (a : Addr) (act : Act) :
    (exec (initialState own fe) acts).mintedCount a ≤ 1 ∧
    ((exec (initialState own fe) acts).mintedCount a = 1 ↔
      0 < ((exec (initialState own fe) acts).userStats a).badgeTier) ∧
    (execOne (exec (initialState own fe) acts) act).mintedCount a =
      (exec (initialState own fe) acts).mintedCount a +
      (if ((exec (initialState own fe) acts).userStats a).badgeTier = 0 ∧
          0 < ((execOne (exec (initialState own fe) acts) act).userStats a).badgeTier
       then 1 else 0) := by
  have hInv := exec_Inv (initialState_Inv own fe) acts
  have hInv' := execOne_Inv hInv act
  have hcnt := (hInv.2.2.2.2 a).2
  refine ⟨?_, ?_,
    minted_step_of_badgeOk hInv.2.2.2 hInv'.2.2.2
      (execOne_tier_mono (exec (initialState own fe) acts) act a)⟩
  · rw [hcnt]
    split_ifs <;> omega
  · rw [hcnt]
    split_ifs with h0
    · simp [h0]
    · constructor
      · intro h'
        omega
      · intro h'
        rfl

/-- C4: a call of `increment()` or `decrement()` whose attached value is not
exactly the configured fee reverts and leaves the whole state unchanged. -/
theorem claim_C4 (s : ContractState) (sender value now : Nat)
    (h : value ≠ s.fee) :
    increment s sender value now = none ∧
    decrement s sender value now = none ∧
    execOne s (Act.inc sender value now) = s ∧
    execOne s (Act.dec sender value now) = s :=
  ⟨increment_wrong_fee h, decrement_wrong_fee h,
   execOne_of_none ((callAct_inc s sender value now).trans (increment_wrong_fee h)),
   execOne_of_none ((callAct_dec s sender value now).trans (decrement_wrong_fee h))⟩

theorem claim_C4_witness :
    (1 : Nat) ≠ (initialState 0 0).fee ∧
    increment (initialState 0 0) 5 1 3600 = none ∧
    decrement (initialState 0 0) 5 1 3600 = none ∧
    execOne (initialState 0 0) (Act.inc 5 1 3600) = initialState 0 0 ∧
    execOne (initialState 0 0) (Act.dec 5 1 3600) = initialState 0 0 :=
  ⟨by decide, claim_C4 (initialState 0 0) 5 1 3600 (by decide)⟩

/-- C5: a mutating call strictly before `lastActionTime + COOLDOWN_SECONDS`
reverts with no state change; at or after that instant the `timeLocked` guard
passes; and every successful call stores the call's timestamp as the
caller's new `lastActionTime`. -/
theorem claim_C5 (s : ContractState) (sender value now : Nat) :
    (now < (s.userStats sender).lastActionTime + COOLDOWN_SECONDS →
      increment s sender value now = none ∧
      decrement s sender value now = none ∧
      execOne s (Act.inc sender value now) = s ∧
      execOne s (Act.dec sender value now) = s) ∧
    ((s.userStats sender).lastActionTime + COOLDOWN_SECONDS ≤ now →
      cooldownPassed s sender now = true) ∧
    (∀ s', increment s sender value now = some s' →
      (s'.userStats sender).lastActionTime = now) ∧
    (∀ s', decrement s sender value now = some s' →
      (s'.userStats sender).lastActionTime = now) := by
  refine ⟨?_, ?_, ?_, ?_⟩
  · intro h
    exact ⟨increment_cooldown h, decrement_cooldown h,
      execOne_of_none ((callAct_inc s sender value now).trans (increment_cooldown h)),
      execOne_of_none ((callAct_dec s sender value now).trans (decrement_cooldown h))⟩
  · intro h
    simp only [cooldownPassed, decide_eq_true_eq]
    exact h
  · intro s' h
    rw [increment_some h, incrementBody_userStats]
    simp
  · intro s' h
    rw [decrement_some h, decrementBody_userStats]
    simp

/-- C6: on a full 20-slot board not containing the candidate, the update
admits the candidate exactly when its score strictly beats the last slot's;
otherwise it is a no-op; on admission the last entry is dropped, the new one
inserted in sorted position, and the board stays full. The 21-address
scenario with scores 1..21 ends with the board 21..2 and score 1 evicted. -/
theorem claim_C6 :
    (∀ (board : List Entry) (u : Addr) (c : Nat),
      sortedBoard board → addrsNodup board → board.length = MAX_TOP →
      (∀ e ∈ board, e.1 ≠ u) →
      ((c ≤ (board.getLastD (0, 0)).2 →
          updateTopLeaderboard board u c = board ∧
          u ∉ (updateTopLeaderboard board u c).map Prod.fst) ∧
       ((board.getLastD (0, 0)).2 < c →
          (updateTopLeaderboard board u c).Perm ((u, c) :: board.dropLast) ∧
          sortedBoard (updateTopLeaderboard board u c) ∧
          (updateTopLeaderboard board u c).length = MAX_TOP ∧
          u ∈ (updateTopLeaderboard board u c).map Prod.fst))) ∧
    runUpdates [] scenarioCalls = scenarioFinal := by
  constructor
  · intro board u c hs hn hlen hno
    rcases updateTopLeaderboard_char board u c with
      ⟨pre, f, suf, hb, hfu, -, -⟩ | ⟨-, hl, -⟩ | ⟨-, -, hc, heq⟩ | ⟨-, -, hc, heq⟩
    · exact absurd hfu (hno f (by rw [hb]; simp))
    · exact absurd hl (by omega)
    · refine ⟨fun hcle => ⟨heq, ?_⟩, fun hclt => absurd hc (by omega)⟩
      rw [heq]
      intro hmem
      obtain ⟨e, he, hee⟩ := List.mem_map.mp hmem
      exact hno e he hee
    · refine ⟨fun hcle => absurd hc (by omega), fun hclt => ?_⟩
      have hperm : (updateTopLeaderboard board u c).Perm ((u, c) :: board.dropLast) := by
        rw [heq]
        exact bubble_perm _ _
      have hsorted : sortedBoard (updateTopLeaderboard board u c) := by
        refine updateTopLeaderboard_sorted hs ?_
        intro sc hmem
        exact absurd rfl (hno (u, sc) hmem)
      have hlen' : (updateTopLeaderboard board u c).length = MAX_TOP := by
        rw [heq, bubble_length, List.length_dropLast]
        simp only [MAX_TOP] at hlen ⊢
        omega
      refine ⟨hperm, hsorted, hlen', ?_⟩
      have hmem : (u, c) ∈ updateTopLeaderboard board u c :=
        hperm.mem_iff.mpr (by simp)
      exact List.mem_map.mpr ⟨(u, c), hmem, rfl⟩
  · decide

/-- C7: `decrement()` with the counter at zero reverts — also when the exact
fee is paid and the cooldown has elapsed — leaving all state, in particular
the counter, unchanged. -/
theorem claim_C7 (s : ContractState) (sender value now : Nat)
    (hfee : value = s.fee) (hcool : cooldownPassed s sender now = true)
    (hzero : s.count = 0) :
    decrement s sender value now = none ∧
    execOne s (Act.dec sender value now) = s ∧
    (execOne s (Act.dec sender value now)).count = s.count := by
  have hnone : callAct s (Act.dec sender value now) = none :=
    (callAct_dec s sender value now).trans (decrement_at_zero hzero)
  refine ⟨decrement_at_zero hzero, execOne_of_none hnone, ?_⟩
  rw [execOne_of_none hnone]

theorem claim_C7_witness :
    (0 : Nat) = (initialState 0 0).fee ∧
    cooldownPassed (initialState 0 0) 5 3600 = true ∧
    (initialState 0 0).count = 0 ∧
    decrement (initialState 0 0) 5 0 3600 = none ∧
    execOne (initialState 0 0) (Act.dec 5 0 3600) = initialState 0 0 ∧
    (execOne (initialState 0 0) (Act.dec 5 0 3600)).count = (initialState 0 0).count :=
  ⟨by decide, by decide, by decide,
   claim_C7 (initialState 0 0) 5 0 3600 (by decide) (by decide) (by decide)⟩

/-- C8: with the deployed thresholds, `_determineTier` is the pure table
{10, 25, 50, 100, 250, 500, 1000} → tiers 1..7, each reached inclusively and
0 below all; and ten fee-0 increments by one fresh address give count 10,
increments 10, tier 1 and the one-entry board [(address, 10)]. -/
theorem claim_C8 :
    (∀ own fe n,
      (determineTier (initialState own fe) n = 0 ↔ n < 10) ∧
      (determineTier (initialState own fe) n = 1 ↔ 10 ≤ n ∧ n < 25) ∧
      (determineTier (initialState own fe) n = 2 ↔ 25 ≤ n ∧ n < 50) ∧
      (determineTier (initialState own fe) n = 3 ↔ 50 ≤ n ∧ n < 100) ∧
      (determineTier (initialState own fe) n = 4 ↔ 100 ≤ n ∧ n < 250) ∧
      (determineTier (initialState own fe) n = 5 ↔ 250 ≤ n ∧ n < 500) ∧
      (determineTier (initialState own fe) n = 6 ↔ 500 ≤ n ∧ n < 1000) ∧
      (determineTier (initialState own fe) n = 7 ↔ 1000 ≤ n)) ∧
    (exec (initialState 7 0) tenIncrements).count = 10 ∧
    ((exec (initialState 7 0) tenIncrements).userStats 1).increments = 10 ∧
    ((exec (initialState 7 0) tenIncrements).userStats 1).badgeTier = 1 ∧
    (exec (initialState 7 0) tenIncrements).board = [(1, 10)] := by
  refine ⟨?_, by decide, by decide, by decide, by decide⟩
  intro own fe n
  simp only [determineTier, tierOf, initialState]
  split_ifs <;> (try simp) <;> omega

/-- C10: in any reachable state each leaderboard slot's score is the total
number of successful actions of its address — its increments plus its
decrements — and a successful `decrement()` adds 1 to the caller's
`incrementCount` (the leaderboard score source) while leaving its
`increments`, the badge-tier input, unchanged. -/
theorem claim_C10 (own fe : Nat) (acts : List Act) :
    (∀ e ∈ (exec (initialState own fe) acts).board,
      e.2 = ((exec (initialState own fe) acts).userStats e.1).increments +
            ((exec (initialState own fe) acts).userStats e.1).decrements) ∧
    (∀ sender value now s',
      decrement (exec (initialState own fe) acts) sender value now = some s' →
        s'.incrementCount sender =
          (exec (initialState own fe) acts).incrementCount sender + 1 ∧
        (s'.userStats sender).increments =
          ((exec (initialState own fe) acts).userStats sender).increments) := by
  have hInv := exec_Inv (initialState_Inv own fe) acts
  refine ⟨?_, ?_⟩
  · intro e he
    have h1 := hInv.2.1 e he
    have h2 := hInv.2.2.1 e.1
    rw [h1, h2]
  · intro sender value now s' h
    rw [decrement_some h]
    constructor
    · rw [decrementBody_incrementCount]
      simp [updMap]
    · rw [decrementBody_userStats]
      simp

/-- C9 (amended): in the part_000 client the `isRefreshing` guard keeps at
most one scheduled refresh cycle in flight on every event interleaving, and
a tick that fires while one is in flight is skipped outright. -/
theorem claim_C9 (evs : List ClientEvent) (s : ClientState) :
    (guardedRun evs).inFlight ≤ 1 ∧
    (s.isRefreshing = true → guardedStep s ClientEvent.tick = s) := by
  constructor
  · have h := guarded_foldl_inv (s := clientInit) (by simp [clientInit]) evs
    rw [guardedRun, h]
    split_ifs <;> omega
  · intro h
    simp [guardedStep, h]

/-- C9 counterexample: the src/main.js loop has no `isRefreshing` guard, so
two interval ticks whose awaited work has not finished put two refresh
cycles in flight at once. -/
theorem claim_C9_counterexample :
    (unguardedRun [ClientEvent.connect, ClientEvent.tick, ClientEvent.tick]).inFlight
      = 2 ∧
    ¬ (unguardedRun
        [ClientEvent.connect, ClientEvent.tick, ClientEvent.tick]).inFlight ≤ 1 := by
  decide

end Nexus
